import Mathlib

/-!
# Epsilon-greedy bandit arm allocation: a shallow embedding

This file embeds `EpsilonGreedy.allocate_arms` from
`moe/bandit/epsilon_greedy.py` (Cornell-MOE) into Lean and proves the
documented properties of the allocation algorithm.

Modelling choices:
* A sampled arm (`SampleArm`, from `moe.bandit.data_containers`) carries the
  non-negative integer counts `win`, `loss`, `total`.
* The Python `dict` of arms (`arms_sampled`) is an association list
  `List (String × SampleArm)`; a well-formed dictionary has pairwise distinct
  keys, which theorems take as the `Nodup` hypothesis where it matters.
* Python float arithmetic (`numpy.float64`) is modelled by exact rational
  arithmetic over `ℚ`: the algorithm is a closed-form computation with
  sums, one subtraction and two divisions, and every specified property is
  stated in terms of the exact values.
* `raise ValueError('sample_arms are empty!')` is modelled as returning
  `Except.error BanditError.EmptyInputError`; this is the single error kind
  of the component, named `EmptyInputError` in the design documentation.
-/

namespace CornellMoe

/-- Per-arm historical statistics: `win`, `loss` and `total` counts
(fields `win`, `loss`, `total` of a sampled arm). -/
structure SampleArm where
  win : Nat
  loss : Nat
  total : Nat
deriving DecidableEq, Repr

/-- The historical information handed to the bandit: the mapping from arm
name to its sampled statistics, as an association list standing in for the
Python `dict` (`historical_info.arms_sampled`). -/
structure HistoricalInfo where
  arms_sampled : List (String × SampleArm)
deriving DecidableEq, Repr

/-- Modelled from the spec: `num_arms` is an accessor of the historical-data
container (a superclass collaborator whose code is not part of this core);
the spec defines it as the number of distinct arm identifiers. For an
association list with pairwise distinct keys this is the list length. -/
def HistoricalInfo.num_arms (h : HistoricalInfo) : Nat :=
  h.arms_sampled.length

/-- The average payoff of one arm:
`numpy.float64(sampled_arm.win - sampled_arm.loss) / sampled_arm.total if
sampled_arm.total > 0 else 0` (epsilon_greedy.py line 77). -/
def avg_payoff (a : SampleArm) : ℚ :=
  if 0 < a.total then ((a.win : ℚ) - (a.loss : ℚ)) / (a.total : ℚ) else 0

/-- The list of `(average payoff, arm name)` pairs built by the loop at
epsilon_greedy.py lines 75-78 (`avg_payoff_arm_name_list`), one pair per
entry of `arms_sampled`. -/
def avg_payoff_arm_name_list (h : HistoricalInfo) : List (ℚ × String) :=
  h.arms_sampled.map (fun p => (avg_payoff p.2, p.1))

/-- The first component of the head of `avg_payoff_arm_name_list` after it is
sorted in descending order (epsilon_greedy.py lines 79-81): the maximum of
the first components, computed here as a running fold.  The sort orders pairs
lexicographically, so the head's payoff component is the maximum payoff. -/
def best_payoff : List (ℚ × String) → ℚ
  | [] => 0
  | p :: ps => ps.foldl (fun m q => max m q.1) p.1

/-- The `best_payoff` of the historical info's payoff list. -/
def maxAvgPayoff (h : HistoricalInfo) : ℚ :=
  best_payoff (avg_payoff_arm_name_list h)

/-- The `winning_arm_name_list` (epsilon_greedy.py lines 82-85): the names of
the arms whose average payoff equals `best_payoff`, extracted from the
filtered pair list. -/
def winning_arm_name_list (h : HistoricalInfo) : List String :=
  ((avg_payoff_arm_name_list h).filter
    (fun q => q.1 == maxAvgPayoff h)).map Prod.snd

/-- The `num_winning_arms` count (epsilon_greedy.py line 87). -/
def num_winning_arms (h : HistoricalInfo) : Nat :=
  (winning_arm_name_list h).length

/-- The single error kind of the allocation engine, raised when
`arms_sampled` is empty.  The source raises
`ValueError('sample_arms are empty!')`; the component's design documentation
names this failure `EmptyInputError`. -/
inductive BanditError where
  | EmptyInputError
deriving DecidableEq, Repr

/-- Models `arms_to_allocations[winning_arm_name] += winning_arm_allocation`
(epsilon_greedy.py line 94) on the association-list model of the dict: add
`v` to the value of every entry whose key is `k` (in a well-formed dict the
key occurs at most once). -/
def bump (l : List (String × ℚ)) (k : String) (v : ℚ) : List (String × ℚ) :=
  l.map (fun p => if p.1 = k then (p.1, p.2 + v) else p)

/-- The method `EpsilonGreedy.allocate_arms` (epsilon_greedy.py lines 66-96).
`epsilon` is the exploration-rate hyperparameter held by the object
(`self._epsilon`), passed here explicitly.

* If `arms_sampled` is empty the call fails (line 69).
* Otherwise every arm receives the baseline `epsilon_allocation =
  epsilon / num_arms` (lines 88-91), and every winning arm additionally
  receives `winning_arm_allocation = (1 - epsilon) / num_winning_arms`
  (lines 92-94), realised as a fold of `bump` over the winning names. -/
def allocate_arms (historical_info : HistoricalInfo) (epsilon : ℚ) :
    Except BanditError (List (String × ℚ)) :=
  if historical_info.arms_sampled.isEmpty then
    Except.error BanditError.EmptyInputError
  else
    let epsilon_allocation := epsilon / (historical_info.num_arms : ℚ)
    let arms_to_allocations :=
      historical_info.arms_sampled.map (fun p => (p.1, epsilon_allocation))
    let winning_arm_allocation :=
      (1 - epsilon) / (num_winning_arms historical_info : ℚ)
    Except.ok ((winning_arm_name_list historical_info).foldl
      (fun acc w => bump acc w winning_arm_allocation) arms_to_allocations)

/-! ## Helper lemmas about the maximum payoff -/

/-- The fold computing the maximal payoff never drops below its seed. -/
lemma le_foldl_max (ps : List (ℚ × String)) (a : ℚ) :
    a ≤ ps.foldl (fun m q => max m q.1) a := by
  induction ps generalizing a with
  | nil => exact le_refl a
  | cons p ps ih => exact le_trans (le_max_left a p.1) (ih (max a p.1))

/-- Every payoff in the list is bounded by the fold's result. -/
lemma mem_le_foldl_max {ps : List (ℚ × String)} (a : ℚ) {q : ℚ × String}
    (hq : q ∈ ps) : q.1 ≤ ps.foldl (fun m q => max m q.1) a := by
  induction ps generalizing a with
  | nil => cases hq
  | cons p ps ih =>
    rcases List.mem_cons.mp hq with h | h
    · subst h
      exact le_trans (le_max_right a q.1) (le_foldl_max ps (max a q.1))
    · exact ih (max a p.1) h

/-- The fold's result is either the seed or one of the payoffs. -/
lemma foldl_max_cases (ps : List (ℚ × String)) (a : ℚ) :
    ps.foldl (fun m q => max m q.1) a = a ∨
      ∃ q ∈ ps, ps.foldl (fun m q => max m q.1) a = q.1 := by
  induction ps generalizing a with
  | nil => exact Or.inl rfl
  | cons p ps ih =>
    rcases ih (max a p.1) with h | ⟨q, hq, h⟩
    · rcases max_choice a p.1 with hm | hm
      · exact Or.inl (by simpa [List.foldl_cons, hm] using h)
      · exact Or.inr ⟨p, List.mem_cons_self _ _, by simpa [List.foldl_cons, hm] using h⟩
    · exact Or.inr ⟨q, List.mem_cons_of_mem _ hq, h⟩

/-- The `best_payoff` is an upper bound of the payoffs of the list. -/
lemma le_best_payoff {l : List (ℚ × String)} {q : ℚ × String} (hq : q ∈ l) :
    q.1 ≤ best_payoff l := by
  cases l with
  | nil => cases hq
  | cons p ps =>
    rcases List.mem_cons.mp hq with h | h
    · subst h; exact le_foldl_max ps q.1
    · exact mem_le_foldl_max p.1 h

/-- On a non-empty list, `best_payoff` is attained by some pair. -/
lemma best_payoff_mem {l : List (ℚ × String)} (hl : l ≠ []) :
    ∃ q ∈ l, best_payoff l = q.1 := by
  cases l with
  | nil => exact absurd rfl hl
  | cons p ps =>
    rcases foldl_max_cases ps p.1 with h | ⟨q, hq, h⟩
    · exact ⟨p, List.mem_cons_self _ _, h⟩
    · exact ⟨q, List.mem_cons_of_mem _ hq, h⟩

/-- Every arm's average payoff is at most `maxAvgPayoff`. -/
lemma avg_le_maxAvgPayoff {h : HistoricalInfo} {p : String × SampleArm}
    (hp : p ∈ h.arms_sampled) : avg_payoff p.2 ≤ maxAvgPayoff h := by
  have hmem : (avg_payoff p.2, p.1) ∈ avg_payoff_arm_name_list h :=
    List.mem_map.mpr ⟨p, hp, rfl⟩
  exact le_best_payoff hmem

/-- On a non-empty input, some arm attains the maximal average payoff. -/
lemma exists_winning {h : HistoricalInfo} (hne : h.arms_sampled ≠ []) :
    ∃ p ∈ h.arms_sampled, avg_payoff p.2 = maxAvgPayoff h := by
  have hl : avg_payoff_arm_name_list h ≠ [] := by
    simp [avg_payoff_arm_name_list, hne]
  rcases best_payoff_mem hl with ⟨q, hq, hbest⟩
  rcases List.mem_map.mp hq with ⟨p, hp, rfl⟩
  exact ⟨p, hp, hbest.symm⟩

/-- The winning set is non-empty whenever the input is. -/
lemma one_le_num_winning_arms {h : HistoricalInfo} (hne : h.arms_sampled ≠ []) :
    1 ≤ num_winning_arms h := by
  rcases exists_winning hne with ⟨p, hp, hwin⟩
  have hmem : (avg_payoff p.2, p.1) ∈ avg_payoff_arm_name_list h :=
    List.mem_map.mpr ⟨p, hp, rfl⟩
  have hfil : (avg_payoff p.2, p.1) ∈
      (avg_payoff_arm_name_list h).filter (fun q => q.1 == maxAvgPayoff h) :=
    List.mem_filter.mpr ⟨hmem, by simpa using hwin⟩
  have : p.1 ∈ winning_arm_name_list h :=
    List.mem_map.mpr ⟨_, hfil, rfl⟩
  have hpos : winning_arm_name_list h ≠ [] := List.ne_nil_of_mem this
  simpa [num_winning_arms, Nat.one_le_iff_ne_zero, List.length_eq_zero] using hpos

/-- Every winning arm name is an arm key of the input. -/
lemma winning_mem_keys {h : HistoricalInfo} {w : String}
    (hw : w ∈ winning_arm_name_list h) : w ∈ h.arms_sampled.map Prod.fst := by
  rcases List.mem_map.mp hw with ⟨q, hq, rfl⟩
  rcases List.mem_map.mp (List.mem_filter.mp hq).1 with ⟨p, hp, rfl⟩
  exact List.mem_map.mpr ⟨p, hp, rfl⟩

/-! ## Helper lemmas about the allocation fold -/

/-- Folding `bump` over the winning names rewrites each dict entry to its
baseline value plus one `v` per occurrence of its key among the names. -/
lemma foldl_bump_eq_map (ws : List String) (v : ℚ) :
    ∀ base : List (String × ℚ),
      ws.foldl (fun acc w => bump acc w v) base
        = base.map (fun p => (p.1, p.2 + (ws.count p.1 : ℚ) * v)) := by
  induction ws with
  | nil => intro base; simp
  | cons w ws ih =>
    intro base
    rw [List.foldl_cons, ih (bump base w v), bump, List.map_map]
    refine List.map_congr_left (fun p _ => ?_)
    by_cases hw : p.1 = w
    · simp only [Function.comp_apply, if_pos hw, List.count_cons, hw]
      simp only [beq_self_eq_true, if_pos rfl]
      push_cast
      ring_nf
    · simp only [Function.comp_apply, if_neg hw, List.count_cons]
      have : ¬ (w == p.1) = true := by simpa [beq_iff_eq] using fun e => hw e.symm
      simp [this]

/-- In a dict with pairwise distinct keys, a conjunction of a test with a key
match counts the unique entry carrying that key. -/
lemma countP_key (c : String × SampleArm → Bool) :
    ∀ (l : List (String × SampleArm)), (l.map Prod.fst).Nodup →
      ∀ p ∈ l, l.countP (fun a => c a && (a.1 == p.1))
        = if c p then 1 else 0 := by
  intro l
  induction l with
  | nil => intro _ p hp; cases hp
  | cons a t ih =>
    intro hnd p hp
    have hnd' : (t.map Prod.fst).Nodup := (List.nodup_cons.mp (by simpa using hnd)).2
    have hna : a.1 ∉ t.map Prod.fst := (List.nodup_cons.mp (by simpa using hnd)).1
    rcases List.mem_cons.mp hp with h | h
    · subst h
      have hz : t.countP (fun b => c b && (b.1 == p.1)) = 0 := by
        refine List.countP_eq_zero.mpr (fun b hb => ?_)
        have : b.1 ≠ p.1 := fun e => hna (e ▸ List.mem_map.mpr ⟨b, hb, rfl⟩)
        simp [this]
      rw [List.countP_cons, hz]
      simp
    · have hne : p.1 ≠ a.1 := by
        intro e
        exact hna (e ▸ List.mem_map.mpr ⟨p, h, rfl⟩)
      have hne' : a.1 ≠ p.1 := fun e => hne e.symm
      rw [List.countP_cons, ih hnd' p h]
      simp [hne']

/-- In a well-formed dict, an arm's key occurs in the winning-name list once
if its average payoff is maximal and zero times otherwise. -/
lemma count_winning {h : HistoricalInfo}
    (hnd : (h.arms_sampled.map Prod.fst).Nodup)
    {p : String × SampleArm} (hp : p ∈ h.arms_sampled) :
    (winning_arm_name_list h).count p.1
      = if avg_payoff p.2 = maxAvgPayoff h then 1 else 0 := by
  rw [winning_arm_name_list, avg_payoff_arm_name_list, List.count_eq_countP,
    List.countP_map, List.countP_filter, List.countP_map]
  have hc := countP_key (fun a => avg_payoff a.2 == maxAvgPayoff h)
    h.arms_sampled hnd p hp
  refine Eq.trans (List.countP_congr fun a _ => ?_) (Eq.trans hc ?_)
  · simp only [Function.comp_apply]
    exact ⟨fun hb => by simpa [Bool.and_comm] using hb,
      fun hb => by simpa [Bool.and_comm] using hb⟩
  · simp [beq_iff_eq]

/-- Looking up a key in the image of a well-formed dict under a key-preserving
map returns the value computed from the unique entry with that key. -/
lemma lookup_map_of_nodup (val : String × SampleArm → ℚ) :
    ∀ (l : List (String × SampleArm)), (l.map Prod.fst).Nodup →
      ∀ p ∈ l, (l.map (fun q => (q.1, val q))).lookup p.1 = some (val p) := by
  intro l
  induction l with
  | nil => intro _ p hp; cases hp
  | cons a t ih =>
    intro hnd p hp
    have hnd' : (t.map Prod.fst).Nodup := (List.nodup_cons.mp (by simpa using hnd)).2
    have hna : a.1 ∉ t.map Prod.fst := (List.nodup_cons.mp (by simpa using hnd)).1
    rcases List.mem_cons.mp hp with h | h
    · subst h
      simp [List.lookup]
    · have hne : p.1 ≠ a.1 := fun e =>
        hna (e ▸ List.mem_map.mpr ⟨p, h, rfl⟩)
      simp only [List.map_cons, List.lookup]
      have : (p.1 == a.1) = false := by simpa [beq_eq_false_iff_ne] using hne
      rw [this]
      exact ih hnd' p h

/-- On non-empty input, `allocate_arms` succeeds and the result is the input
dict with each arm mapped to `epsilon / num_arms` plus one
`(1 - epsilon) / num_winning_arms` share per occurrence of its key in the
winning-name list. -/
lemma allocate_arms_eq_ok {h : HistoricalInfo} {ε : ℚ}
    (hne : h.arms_sampled ≠ []) :
    allocate_arms h ε = Except.ok (h.arms_sampled.map (fun p =>
      (p.1, ε / (h.num_arms : ℚ)
        + ((winning_arm_name_list h).count p.1 : ℚ)
          * ((1 - ε) / (num_winning_arms h : ℚ))))) := by
  have hfalse : h.arms_sampled.isEmpty = false := by
    simp [List.isEmpty_iff, hne]
  rw [allocate_arms, hfalse]
  simp only [Bool.false_eq_true, if_false, foldl_bump_eq_map, List.map_map]
  rfl

/-- The number of winning arms is the number of arms whose average payoff is
maximal. -/
lemma num_winning_arms_eq_countP (h : HistoricalInfo) :
    num_winning_arms h
      = h.arms_sampled.countP (fun p => avg_payoff p.2 == maxAvgPayoff h) := by
  rw [num_winning_arms, winning_arm_name_list, List.length_map,
    ← List.countP_eq_length_filter, avg_payoff_arm_name_list, List.countP_map]
  rfl

/-- Summing the indicator of one key over a duplicate-free key list that
contains it yields `1`. -/
lemma sum_map_ite_one (w : String) :
    ∀ (keys : List String), keys.Nodup → w ∈ keys →
      (keys.map (fun k => if w = k then (1 : ℚ) else 0)).sum = 1 := by
  intro keys
  induction keys with
  | nil => intro _ hw; cases hw
  | cons k0 rest ih =>
    intro hnd hw
    have hnd' : rest.Nodup := (List.nodup_cons.mp hnd).2
    have hk0 : k0 ∉ rest := (List.nodup_cons.mp hnd).1
    rcases List.mem_cons.mp hw with h | h
    · subst h
      have hz : (rest.map (fun k => if w = k then (1 : ℚ) else 0)).sum = 0 := by
        refine List.sum_eq_zero (fun x hx => ?_)
        rcases List.mem_map.mp hx with ⟨k, hk, rfl⟩
        have hne : w ≠ k := fun e => hk0 (e ▸ hk)
        simp [hne]
      simp [hz]
    · have hne : w ≠ k0 := fun e => hk0 (e ▸ h)
      simp [hne, ih hnd' h]

/-- Summing the occurrence counts of a name list over a duplicate-free key
list covering all its names yields the name list's length. -/
lemma sum_counts (ws : List String) :
    ∀ (keys : List String), keys.Nodup → (∀ w ∈ ws, w ∈ keys) →
      (keys.map (fun k => (ws.count k : ℚ))).sum = ws.length := by
  induction ws with
  | nil => intro keys _ _; simp
  | cons w ws ih =>
    intro keys hnd hsub
    have hcast : ∀ k ∈ keys, ((w :: ws).count k : ℚ)
        = (ws.count k : ℚ) + (if w = k then (1 : ℚ) else 0) := by
      intro k _
      rw [List.count_cons]
      by_cases he : w = k
      · simp only [he, beq_self_eq_true, if_pos rfl, if_pos trivial]
        push_cast
        ring
      · simp [he]
    rw [List.map_congr_left hcast, List.sum_map_add,
      ih keys hnd (fun x hx => hsub x (List.mem_cons_of_mem _ hx)),
      sum_map_ite_one w keys hnd (hsub w (List.mem_cons_self _ _))]
    rw [List.length_cons]
    push_cast
    ring

/-- The per-arm allocation value: baseline plus the winning share exactly
when the arm's average payoff is maximal. -/
lemma alloc_value {h : HistoricalInfo} {ε : ℚ}
    (hnd : (h.arms_sampled.map Prod.fst).Nodup)
    {p : String × SampleArm} (hp : p ∈ h.arms_sampled) :
    ε / (h.num_arms : ℚ)
      + ((winning_arm_name_list h).count p.1 : ℚ)
        * ((1 - ε) / (num_winning_arms h : ℚ))
      = if avg_payoff p.2 = maxAvgPayoff h
        then ε / (h.num_arms : ℚ) + (1 - ε) / (num_winning_arms h : ℚ)
        else ε / (h.num_arms : ℚ) := by
  rw [count_winning hnd hp]
  by_cases hwin : avg_payoff p.2 = maxAvgPayoff h <;> simp [hwin]

/-! ## State-passing form, for the frame property

The Python method runs on an object holding `self._historical_info` and
`self._epsilon`.  To make mutation observable, `allocate_arms_st` threads
that object state explicitly through every step, including through the two
`for` loops (whose bodies could in principle write to it); each step reads
the state exactly where the source line reads `self.…`. -/

/-- The object state of the `EpsilonGreedy` instance: the fields
`self._historical_info` and `self._epsilon` set by the constructor. -/
structure BanditState where
  historical_info : HistoricalInfo
  epsilon : ℚ
deriving DecidableEq, Repr

/-- A fold whose body leaves the threaded state untouched returns the initial
state, and its data component is the fold of the data action at that fixed
state. -/
lemma foldl_state_invariant {α β : Type} (g : BanditState → β → α → β) :
    ∀ (l : List α) (s : BanditState) (b : β),
      l.foldl (fun acc x => (acc.1, g acc.1 acc.2 x)) (s, b)
        = (s, l.foldl (fun bb x => g s bb x) b) := by
  intro l
  induction l with
  | nil => intro s b; rfl
  | cons x xs ih => intro s b; exact ih s (g s b x)

/-- Appending singletons in a fold builds the map of the list. -/
lemma foldl_append_eq_map {α β : Type} (f : α → β) :
    ∀ (l : List α) (acc : List β),
      l.foldl (fun bb x => bb ++ [f x]) acc = acc ++ l.map f := by
  intro l
  induction l with
  | nil => intro acc; simp
  | cons x xs ih => intro acc; rw [List.foldl_cons, ih, List.map_cons]; simp

/-- The method `EpsilonGreedy.allocate_arms` with the object state threaded explicitly.
Statement for statement: the emptiness check reads the state (line 69); the
first loop writes each arm's baseline into the fresh local dict (lines
88-91); `winning_arm_allocation` reads `self._epsilon` from the state after
the first loop (line 92); the second loop adds the winning share (lines
93-94); the final state is returned beside the result. -/
def allocate_arms_st (s : BanditState) :
    BanditState × Except BanditError (List (String × ℚ)) :=
  if s.historical_info.arms_sampled.isEmpty then
    (s, Except.error BanditError.EmptyInputError)
  else
    let epsilon_allocation := s.epsilon / (s.historical_info.num_arms : ℚ)
    let r1 := s.historical_info.arms_sampled.foldl
      (fun acc p => (acc.1, acc.2 ++ [(p.1, epsilon_allocation)]))
      (s, ([] : List (String × ℚ)))
    let s1 := r1.1
    let arms_to_allocations := r1.2
    let winning_arm_allocation :=
      (1 - s1.epsilon) / (num_winning_arms s1.historical_info : ℚ)
    let r2 := (winning_arm_name_list s1.historical_info).foldl
      (fun acc w => (acc.1, bump acc.2 w winning_arm_allocation))
      (s1, arms_to_allocations)
    (r2.1, Except.ok r2.2)

/-! ## Concrete data for witnesses -/

/-- A small concrete historical record with two arms (one sampled arm with
3 wins, 1 loss out of 4 trials and one unsampled arm), used to instantiate
the theorems at a concrete input. -/
def demoHist : HistoricalInfo :=
  ⟨[("a", ⟨3, 1, 4⟩), ("b", ⟨0, 0, 0⟩)]⟩

/-! ## The claims -/

/-- C1: for every non-empty `historical_info` (a well-formed dict) and every
`epsilon`, `allocate_arms` maps each arm whose average payoff —
`(wins - losses) / total` if `total > 0`, else `0` — equals the maximum
average payoff to `epsilon / num_arms + (1 - epsilon) / num_winning_arms`,
and every other arm to exactly `epsilon / num_arms`. -/
theorem allocate_arms_formula (h : HistoricalInfo) (ε : ℚ)
    (hnd : (h.arms_sampled.map Prod.fst).Nodup)
    (hne : h.arms_sampled ≠ []) :
    ∀ p ∈ h.arms_sampled, ∃ out, allocate_arms h ε = Except.ok out ∧
      out.lookup p.1 = some (if avg_payoff p.2 = maxAvgPayoff h
        then ε / (h.num_arms : ℚ) + (1 - ε) / (num_winning_arms h : ℚ)
        else ε / (h.num_arms : ℚ)) := by
  intro p hp
  refine ⟨_, allocate_arms_eq_ok hne, ?_⟩
  rw [lookup_map_of_nodup _ h.arms_sampled hnd p hp]
  exact congrArg some (alloc_value hnd hp)

/-- Witness for C1 at a concrete input: the sampled arm "a" of `demoHist`
with `epsilon = 1/10`. -/
theorem allocate_arms_formula_witness :
    ∃ out, allocate_arms demoHist (1/10) = Except.ok out ∧
      out.lookup "a" = some (if avg_payoff ⟨3, 1, 4⟩ = maxAvgPayoff demoHist
        then (1/10) / (demoHist.num_arms : ℚ)
          + (1 - 1/10) / (num_winning_arms demoHist : ℚ)
        else (1/10) / (demoHist.num_arms : ℚ)) :=
  allocate_arms_formula demoHist (1/10) (by decide) (by decide)
    ("a", ⟨3, 1, 4⟩) (by decide)

/-- C3: with an empty `arms_sampled` the call fails with `EmptyInputError`
and produces no allocation; with a non-empty one it never raises that error
and produces a result. -/
theorem allocate_arms_empty_input (h : HistoricalInfo) (ε : ℚ) :
    (h.arms_sampled = [] →
      allocate_arms h ε = Except.error BanditError.EmptyInputError)
    ∧ (h.arms_sampled ≠ [] → ∃ out, allocate_arms h ε = Except.ok out) := by
  constructor
  · intro he
    simp [allocate_arms, he]
  · intro hne
    exact ⟨_, allocate_arms_eq_ok hne⟩

/-- Witness for C3: the empty record fails, `demoHist` succeeds. -/
theorem allocate_arms_empty_input_witness :
    allocate_arms ⟨[]⟩ (1/10) = Except.error BanditError.EmptyInputError
    ∧ ∃ out, allocate_arms demoHist (1/10) = Except.ok out :=
  ⟨(allocate_arms_empty_input ⟨[]⟩ (1/10)).1 rfl,
   (allocate_arms_empty_input demoHist (1/10)).2 (by decide)⟩

/-- C4: on non-empty input the result's keys are exactly the input's arm
identifiers, in the same multiplicity; in particular, for a well-formed
dict every arm identifier appears exactly once in the output. -/
theorem allocate_arms_keys (h : HistoricalInfo) (ε : ℚ)
    (hne : h.arms_sampled ≠ []) :
    ∃ out, allocate_arms h ε = Except.ok out
      ∧ out.map Prod.fst = h.arms_sampled.map Prod.fst
      ∧ ((h.arms_sampled.map Prod.fst).Nodup → (out.map Prod.fst).Nodup) := by
  refine ⟨_, allocate_arms_eq_ok hne, ?_⟩
  have hkeys : (h.arms_sampled.map (fun p =>
      (p.1, ε / (h.num_arms : ℚ)
        + ((winning_arm_name_list h).count p.1 : ℚ)
          * ((1 - ε) / (num_winning_arms h : ℚ))))).map Prod.fst
      = h.arms_sampled.map Prod.fst := by
    rw [List.map_map]
    rfl
  exact ⟨hkeys, fun hnd => by rw [hkeys]; exact hnd⟩

/-- Witness for C4 at `demoHist` with `epsilon = 1/10`. -/
theorem allocate_arms_keys_witness :
    ∃ out, allocate_arms demoHist (1/10) = Except.ok out
      ∧ out.map Prod.fst = demoHist.arms_sampled.map Prod.fst
      ∧ ((demoHist.arms_sampled.map Prod.fst).Nodup →
          (out.map Prod.fst).Nodup) :=
  allocate_arms_keys demoHist (1/10) (by decide)

/-- C6: on any non-empty input the winning set is non-empty
(`num_winning_arms ≥ 1`), so the winning-share division is well-defined and
`allocate_arms` completes without error. -/
theorem allocate_arms_winning_nonempty (h : HistoricalInfo) (ε : ℚ)
    (hne : h.arms_sampled ≠ []) :
    1 ≤ num_winning_arms h ∧ ∃ out, allocate_arms h ε = Except.ok out :=
  ⟨one_le_num_winning_arms hne, _, allocate_arms_eq_ok hne⟩

/-- Witness for C6 at `demoHist` with `epsilon = 1/10`. -/
theorem allocate_arms_winning_nonempty_witness :
    1 ≤ num_winning_arms demoHist
    ∧ ∃ out, allocate_arms demoHist (1/10) = Except.ok out :=
  allocate_arms_winning_nonempty demoHist (1/10) (by decide)

/-- C2: for every non-empty well-formed `historical_info` and every
`epsilon` in `[0, 1)`, the returned allocations sum to exactly `1`
(the computation is exact over `ℚ`, so the floating-point tolerance of the
claim is met with slack zero). -/
theorem allocate_arms_sum_one (h : HistoricalInfo) (ε : ℚ)
    (hnd : (h.arms_sampled.map Prod.fst).Nodup)
    (hne : h.arms_sampled ≠ []) (hε0 : 0 ≤ ε) (hε1 : ε < 1) :
    ∃ out, allocate_arms h ε = Except.ok out
      ∧ (out.map Prod.snd).sum = 1 := by
  refine ⟨_, allocate_arms_eq_ok hne, ?_⟩
  rw [List.map_map]
  have hsnd : (Prod.snd ∘ (fun p : String × SampleArm =>
      (p.1, ε / (h.num_arms : ℚ)
        + ((winning_arm_name_list h).count p.1 : ℚ)
          * ((1 - ε) / (num_winning_arms h : ℚ)))))
      = fun p : String × SampleArm => ε / (h.num_arms : ℚ)
          + ((winning_arm_name_list h).count p.1 : ℚ)
            * ((1 - ε) / (num_winning_arms h : ℚ)) := rfl
  rw [hsnd, List.sum_map_add]
  have h1 : (h.arms_sampled.map
      (fun _ : String × SampleArm => ε / (h.num_arms : ℚ))).sum
      = (h.num_arms : ℚ) * (ε / (h.num_arms : ℚ)) := by
    rw [List.map_const', List.sum_replicate, nsmul_eq_mul]
    rfl
  have h2 : (h.arms_sampled.map (fun p : String × SampleArm =>
      ((winning_arm_name_list h).count p.1 : ℚ)
        * ((1 - ε) / (num_winning_arms h : ℚ)))).sum
      = (num_winning_arms h : ℚ)
        * ((1 - ε) / (num_winning_arms h : ℚ)) := by
    rw [List.sum_map_mul_right]
    rw [show (fun p : String × SampleArm =>
        ((winning_arm_name_list h).count p.1 : ℚ))
      = ((fun k => ((winning_arm_name_list h).count k : ℚ)) ∘ Prod.fst)
      from rfl, ← List.map_map]
    rw [sum_counts (winning_arm_name_list h) (h.arms_sampled.map Prod.fst)
      hnd (fun w hw => winning_mem_keys hw)]
    rfl
  rw [h1, h2]
  have hn : (h.num_arms : ℚ) ≠ 0 := by
    rw [Nat.cast_ne_zero, HistoricalInfo.num_arms]
    simpa [List.length_eq_zero] using hne
  have hw : (num_winning_arms h : ℚ) ≠ 0 := by
    rw [Nat.cast_ne_zero]
    exact Nat.one_le_iff_ne_zero.mp (one_le_num_winning_arms hne)
  field_simp

/-- Witness for C2 at `demoHist` with `epsilon = 1/10`. -/
theorem allocate_arms_sum_one_witness :
    ∃ out, allocate_arms demoHist (1/10) = Except.ok out
      ∧ (out.map Prod.snd).sum = 1 :=
  allocate_arms_sum_one demoHist (1/10) (by decide) (by decide)
    (by norm_num) (by norm_num)

/-- C5: for every non-empty `historical_info` and every `epsilon` in
`[0, 1)`, every returned allocation value is non-negative. -/
theorem allocate_arms_nonneg (h : HistoricalInfo) (ε : ℚ)
    (hne : h.arms_sampled ≠ []) (hε0 : 0 ≤ ε) (hε1 : ε < 1) :
    ∃ out, allocate_arms h ε = Except.ok out ∧ ∀ q ∈ out, 0 ≤ q.2 := by
  refine ⟨_, allocate_arms_eq_ok hne, ?_⟩
  intro q hq
  rcases List.mem_map.mp hq with ⟨p, _, rfl⟩
  have h1 : 0 ≤ ε / (h.num_arms : ℚ) := div_nonneg hε0 (Nat.cast_nonneg _)
  have h2 : 0 ≤ ((winning_arm_name_list h).count p.1 : ℚ) :=
    Nat.cast_nonneg _
  have h3 : 0 ≤ (1 - ε) / (num_winning_arms h : ℚ) :=
    div_nonneg (by linarith) (Nat.cast_nonneg _)
  exact add_nonneg h1 (mul_nonneg h2 h3)

/-- Witness for C5 at `demoHist` with `epsilon = 1/10`. -/
theorem allocate_arms_nonneg_witness :
    ∃ out, allocate_arms demoHist (1/10) = Except.ok out
      ∧ ∀ q ∈ out, 0 ≤ q.2 :=
  allocate_arms_nonneg demoHist (1/10) (by decide) (by norm_num)
    (by norm_num)

/-- C7: the documented tie-splitting example.  Three arms — `arm1` and
`arm2` with 5 wins, 0 losses out of 10 trials, `arm3` unsampled — and
`epsilon = 0.12` yield the allocations `0.48`, `0.48`, `0.04` exactly. -/
theorem allocate_arms_tie_example :
    allocate_arms ⟨[("arm1", ⟨5, 0, 10⟩), ("arm2", ⟨5, 0, 10⟩),
        ("arm3", ⟨0, 0, 0⟩)]⟩ (12/100)
      = Except.ok [("arm1", 48/100), ("arm2", 48/100), ("arm3", 4/100)] := by
  norm_num [allocate_arms, HistoricalInfo.num_arms, winning_arm_name_list,
    num_winning_arms, avg_payoff_arm_name_list, maxAvgPayoff, best_payoff,
    avg_payoff, bump]
  simp
  norm_num

/-- C8: when every arm has the same average payoff (for instance all arms
unsampled) and `epsilon ∈ [0, 1)`, every arm's allocation equals
`1 / num_arms` exactly. -/
theorem allocate_arms_all_tied (h : HistoricalInfo) (ε : ℚ)
    (hnd : (h.arms_sampled.map Prod.fst).Nodup)
    (hne : h.arms_sampled ≠ []) (hε0 : 0 ≤ ε) (hε1 : ε < 1)
    (htied : ∀ p ∈ h.arms_sampled, ∀ q ∈ h.arms_sampled,
      avg_payoff p.2 = avg_payoff q.2) :
    ∃ out, allocate_arms h ε = Except.ok out
      ∧ ∀ q ∈ out, q.2 = 1 / (h.num_arms : ℚ) := by
  refine ⟨_, allocate_arms_eq_ok hne, ?_⟩
  rcases exists_winning hne with ⟨p0, hp0, hmax⟩
  have hwin : ∀ p ∈ h.arms_sampled, avg_payoff p.2 = maxAvgPayoff h :=
    fun p hp => (htied p hp p0 hp0).trans hmax
  have hW : num_winning_arms h = h.num_arms := by
    rw [num_winning_arms_eq_countP, HistoricalInfo.num_arms]
    exact List.countP_eq_length.mpr (fun p hp => by simp [hwin p hp])
  intro q hq
  rcases List.mem_map.mp hq with ⟨p, hp, rfl⟩
  have hcnt := count_winning hnd hp
  rw [if_pos (hwin p hp)] at hcnt
  show ε / (h.num_arms : ℚ) + ((winning_arm_name_list h).count p.1 : ℚ)
      * ((1 - ε) / (num_winning_arms h : ℚ)) = 1 / (h.num_arms : ℚ)
  rw [hcnt, hW]
  have hn : (h.num_arms : ℚ) ≠ 0 := by
    rw [Nat.cast_ne_zero, HistoricalInfo.num_arms]
    simpa [List.length_eq_zero] using hne
  push_cast
  field_simp

/-- A concrete all-tied historical record: two unsampled arms. -/
def allTiedHist : HistoricalInfo :=
  ⟨[("a", ⟨0, 0, 0⟩), ("b", ⟨0, 0, 0⟩)]⟩

/-- Witness for C8 at `allTiedHist` with `epsilon = 1/10`. -/
theorem allocate_arms_all_tied_witness :
    ∃ out, allocate_arms allTiedHist (1/10) = Except.ok out
      ∧ ∀ q ∈ out, q.2 = 1 / (allTiedHist.num_arms : ℚ) :=
  allocate_arms_all_tied allTiedHist (1/10) (by decide) (by decide)
    (by norm_num) (by norm_num)
    (by intro p hp q hq; fin_cases hp <;> fin_cases hq <;> rfl)

/-- C10: the allocation is monotone in average payoff.  For any two arms of
a well-formed non-empty input and `epsilon ∈ [0, 1)`: equal average payoffs
receive equal allocations, and a greater-or-equal average payoff receives a
greater-or-equal allocation. -/
theorem allocate_arms_monotone (h : HistoricalInfo) (ε : ℚ)
    (hnd : (h.arms_sampled.map Prod.fst).Nodup)
    (hne : h.arms_sampled ≠ []) (hε0 : 0 ≤ ε) (hε1 : ε < 1) :
    ∀ p ∈ h.arms_sampled, ∀ q ∈ h.arms_sampled,
      ∃ out, allocate_arms h ε = Except.ok out ∧
        ∃ ap aq, out.lookup p.1 = some ap ∧ out.lookup q.1 = some aq
          ∧ (avg_payoff p.2 = avg_payoff q.2 → ap = aq)
          ∧ (avg_payoff q.2 ≤ avg_payoff p.2 → aq ≤ ap) := by
  intro p hp q hq
  refine ⟨_, allocate_arms_eq_ok hne, _, _,
    lookup_map_of_nodup _ _ hnd p hp, lookup_map_of_nodup _ _ hnd q hq,
    ?_, ?_⟩
  · intro heq
    rw [alloc_value hnd hp, alloc_value hnd hq, heq]
  · intro hle
    rw [alloc_value hnd hp, alloc_value hnd hq]
    have hshare : 0 ≤ (1 - ε) / (num_winning_arms h : ℚ) :=
      div_nonneg (by linarith) (Nat.cast_nonneg _)
    by_cases hqw : avg_payoff q.2 = maxAvgPayoff h
    · have hpw : avg_payoff p.2 = maxAvgPayoff h :=
        le_antisymm (avg_le_maxAvgPayoff hp) (hqw ▸ hle)
      rw [if_pos hpw, if_pos hqw]
    · rw [if_neg hqw]
      by_cases hpw : avg_payoff p.2 = maxAvgPayoff h
      · rw [if_pos hpw]
        linarith
      · rw [if_neg hpw]

/-- Witness for C10 at `demoHist` with `epsilon = 1/10`: the sampled arm
"a" and the unsampled arm "b". -/
theorem allocate_arms_monotone_witness :
    ∃ out, allocate_arms demoHist (1/10) = Except.ok out ∧
      ∃ ap aq, out.lookup "a" = some ap ∧ out.lookup "b" = some aq
        ∧ (avg_payoff ⟨3, 1, 4⟩ = avg_payoff ⟨0, 0, 0⟩ → ap = aq)
        ∧ (avg_payoff ⟨0, 0, 0⟩ ≤ avg_payoff ⟨3, 1, 4⟩ → aq ≤ ap) :=
  allocate_arms_monotone demoHist (1/10) (by decide) (by decide)
    (by norm_num) (by norm_num) ("a", ⟨3, 1, 4⟩) (by decide)
    ("b", ⟨0, 0, 0⟩) (by decide)

/-- C9: `allocate_arms` mutates nothing.  In the state-passing form the
object state (historical info and epsilon) returned by the call is the one
passed in, and the computed result is exactly that of the functional
`allocate_arms`; the function only constructs a fresh result mapping. -/
theorem allocate_arms_no_mutation (s : BanditState) :
    (allocate_arms_st s).1 = s
    ∧ (allocate_arms_st s).2 = allocate_arms s.historical_info s.epsilon := by
  by_cases he : s.historical_info.arms_sampled.isEmpty
  · exact ⟨by simp [allocate_arms_st, he],
      by simp [allocate_arms_st, allocate_arms, he]⟩
  · have hb : s.historical_info.arms_sampled.isEmpty = false := by
      simpa using he
    have h1 := foldl_state_invariant
      (fun _ bb (p : String × SampleArm) =>
        bb ++ [(p.1, s.epsilon / (s.historical_info.num_arms : ℚ))])
      s.historical_info.arms_sampled s ([] : List (String × ℚ))
    simp only [allocate_arms_st, allocate_arms, hb, Bool.false_eq_true,
      if_false, h1, foldl_append_eq_map, List.nil_append]
    have h2 := foldl_state_invariant
      (fun _ bb (w : String) =>
        bump bb w ((1 - s.epsilon) / (num_winning_arms s.historical_info : ℚ)))
      (winning_arm_name_list s.historical_info) s
      (s.historical_info.arms_sampled.map
        (fun p => (p.1, s.epsilon / (s.historical_info.num_arms : ℚ))))
    rw [h2]
    exact ⟨rfl, rfl⟩

end CornellMoe
